import Mathlib

/-!
Verification of the `dirstamp` tool (src/main.rs): a shallow embedding of
its directory-timestamp propagation algorithm and command-line behaviour,
with theorems settling the specified properties.

Modelling conventions:
* A filesystem path is a list of components (`components().count()` is the
  list length).
* The static shape of the filesystem scanned by one run is a `Tree`: a list
  of `Node`s, one per filesystem entry, carrying the entry's path, kind
  (regular file / directory / symlink / other), whether `metadata()`
  succeeds for it (`metaOk`), whether `modified()` succeeds (`mtimeOk`),
  and its on-disk mtime at the start of the run (seconds, as `Nat`).
* Mtime updates performed by the run are recorded in a `Stamps` overlay
  (most recent first); `stampOf` reads the effective mtime of a node.
  This mirrors `set_file_mtime`, which changes only the one path it is
  given and leaves the rest of the tree alone.
-/

set_option autoImplicit false

deriving instance DecidableEq for Except

namespace Dirstamp

abbrev Path := List String

/-- Kind of a directory entry as reported by non-following metadata. -/
inductive FKind where
  | file
  | dir
  | symlink
  | other
deriving DecidableEq

/-- One filesystem entry in the scanned tree. -/
structure Node where
  path : Path
  kind : FKind
  metaOk : Bool
  mtimeOk : Bool
  mtime : Nat
deriving DecidableEq

abbrev Tree := List Node

/-- Overlay of mtime updates applied so far, most recent first. -/
abbrev Stamps := List (Path × Nat)

/-- Effective mtime of a node: the most recent update for its path, if any,
else its initial on-disk mtime. -/
def stampOf (s : Stamps) (n : Node) : Nat :=
  match s.find? (fun e => decide (e.1 = n.path)) with
  | some e => e.2
  | none => n.mtime

/-- Rust `set_folder_mtime`: record a new mtime for one path. -/
def set_folder_mtime (s : Stamps) (p : Path) (m : Nat) : Stamps :=
  (p, m) :: s

/-- Rust `depth_of`: `path.components().count()`. -/
def depth_of (p : Path) : Nat :=
  p.length

/-- Whether `q` is the path of an immediate child of directory `p`. -/
def isChildPath (q p : Path) : Bool :=
  decide (q.dropLast = p) && decide (q.length = p.length + 1)

/-- The entries produced by `fs::read_dir(p)`: immediate children, in tree
order. -/
def childrenOf (t : Tree) (p : Path) : List Node :=
  t.filter (fun n => isChildPath n.path p)

/-- Look a path up in the tree (a `stat` of that path). -/
def lookup (t : Tree) (p : Path) : Option Node :=
  t.find? (fun n => decide (n.path = p))

/-- Rust `curr.max(modified)` folded into the `Option` accumulator update
of `find_latest_mtime`. -/
def stepMax (o : Option Nat) (m : Nat) : Nat :=
  match o with
  | some curr => max curr m
  | none => m

/-- The child-scanning loop of `find_latest_mtime`: walks the listed
children accumulating newest-file and newest-dir mtimes.  A child whose
`metadata()` fails aborts the scan with an error (the `?` operator); a
child whose `modified()` fails is skipped silently; children that are
neither regular files nor directories contribute to neither accumulator. -/
def scanChildren (s : Stamps) : List Node → Option Nat → Option Nat → Except Unit (Option Nat × Option Nat)
  | [], nf, nd => .ok (nf, nd)
  | n :: rest, nf, nd =>
    if n.metaOk = false then .error ()
    else if n.mtimeOk = false then scanChildren s rest nf nd
    else
      match n.kind with
      | .file => scanChildren s rest (some (stepMax nf (stampOf s n))) nd
      | .dir => scanChildren s rest nf (some (stepMax nd (stampOf s n)))
      | _ => scanChildren s rest nf nd

/-- Rust `find_latest_mtime`: newest mtime among immediate children of `p`,
preferring files over subdirectories (`newest_file.or(newest_dir)`). -/
def find_latest_mtime (t : Tree) (s : Stamps) (p : Path) : Except Unit (Option Nat) :=
  match scanChildren s (childrenOf t p) none none with
  | .error e => .error e
  | .ok (nf, nd) => .ok (nf.or nd)

/-- Reading the current mtime of directory `p` in the main loop:
`fs::metadata(&path).and_then(|m| m.modified())`. -/
def dirMtime (t : Tree) (s : Stamps) (p : Path) : Option Nat :=
  match lookup t p with
  | some n => if n.metaOk && n.mtimeOk then some (stampOf s n) else none
  | none => none

/-- The body of the per-directory iteration of `main`: read the current
mtime, resolve the newest immediate child, and update when the difference
exceeds the one-second tolerance.  Returns the new overlay and whether the
directory was counted as updated (reported, in dry-run mode). -/
def processDir (confirm : Bool) (t : Tree) (s : Stamps) (p : Path) : Stamps × Bool :=
  match dirMtime t s p with
  | none => (s, false)
  | some cur =>
    match find_latest_mtime t s p with
    | .error _ => (s, false)
    | .ok none => (s, false)
    | .ok (some latest) =>
      if cur + 1 < latest ∨ latest + 1 < cur then
        if confirm then (set_folder_mtime s p latest, true) else (s, true)
      else (s, false)

/-- Stable insertion placing `p` before the first element of no greater
depth; folding it from the right reproduces the output of the stable
`sort_by_key(|e| Reverse(depth_of(e.path())))`. -/
def insertDesc (p : Path) : List Path → List Path
  | [] => [p]
  | q :: rest => if q.length ≤ p.length then p :: q :: rest else q :: insertDesc p rest

/-- Stable deepest-first sort by `depth_of`. -/
def sortByDepthDesc (l : List Path) : List Path :=
  l.foldr insertDesc []

/-- Whether `q` lies in the subtree rooted at `root`. -/
def underRoot (root q : Path) : Bool :=
  decide (q.take root.length = root)

/-- The directories collected by the `WalkDir` pass: every directory of the
tree inside the root's subtree, in tree order. -/
def dirsUnder (t : Tree) (root : Path) : List Path :=
  (t.filter (fun n => decide (n.kind = FKind.dir) && underRoot root n.path)).map Node.path

/-- The processing order of the main loop: the collected directories sorted
deepest first. -/
def sortedDirs (t : Tree) (root : Path) : List Path :=
  sortByDepthDesc (dirsUnder t root)

/-- One iteration of the main loop, threading the overlay and the updated
count. -/
def runStep (confirm : Bool) (t : Tree) (acc : Stamps × Nat) (p : Path) : Stamps × Nat :=
  ((processDir confirm t acc.1 p).1,
    if (processDir confirm t acc.1 p).2 then acc.2 + 1 else acc.2)

/-- The whole traversal-and-update pass of `main` over the subtree at
`root`: returns the final overlay and the count of (would-be) updates. -/
def run (confirm : Bool) (t : Tree) (s : Stamps) (root : Path) : Stamps × Nat :=
  (sortedDirs t root).foldl (runStep confirm t) (s, 0)

/-- Outcome of argument parsing in `main`. -/
inductive ArgOutcome where
  | helpExit
  | versionExit
  | unknownExit (s : String)
  | run (confirm show_dates : Bool) (path : Option String)
deriving DecidableEq

/-- Rust `s.starts_with('-')`: the first character is a dash. -/
def startsWithDash (a : String) : Bool :=
  decide (a.data.take 1 = ['-'])

/-- The hand-rolled flag loop of `main`, with the two flag accumulators. -/
def parseArgs : List String → Bool → Bool → ArgOutcome
  | [], confirm, show_dates => .run confirm show_dates none
  | a :: rest, confirm, show_dates =>
    if a = "-h" ∨ a = "--help" then .helpExit
    else if a = "-V" ∨ a = "--version" then .versionExit
    else if a = "-C" ∨ a = "--confirm" then parseArgs rest true show_dates
    else if a = "-D" ∨ a = "--show-dates" then parseArgs rest confirm true
    else if startsWithDash a then .unknownExit a
    else .run confirm show_dates (some a)

/-- Result of a whole program invocation: either an exit before the
traversal (help, version, unknown flag, missing root), or a completed
traversal. -/
inductive ProgResult where
  | exited (code : Nat) (s : Stamps)
  | completed (s : Stamps) (updatedCount : Nat)
deriving DecidableEq

/-- The filesystem overlay after the invocation. -/
def stampsOf : ProgResult → Stamps
  | .exited _ s => s
  | .completed s _ => s

/-- The process exit status: `print_help_and_exit` and
`print_version_and_exit` exit 0, a missing root exits 2, and a completed
run returns `Ok(())`. -/
def exitCodeOf : ProgResult → Nat
  | .exited c _ => c
  | .completed _ _ => 0

/-- The whole `main`: parse arguments, resolve the root (defaulting to
`"."`), check it exists, and run the traversal.  `toPath` stands for
`PathBuf::from` on the positional argument. -/
def mainRun (args : List String) (t : Tree) (s : Stamps) (toPath : String → Path) : ProgResult :=
  match parseArgs args false false with
  | .helpExit => .exited 0 s
  | .versionExit => .exited 0 s
  | .unknownExit _ => .exited 0 s
  | .run confirm _ pa =>
    match lookup t (toPath (pa.getD ".")) with
    | some _ =>
      .completed (run confirm t s (toPath (pa.getD "."))).1
        (run confirm t s (toPath (pa.getD "."))).2
    | none => .exited 2 s

/-- Spec-shaped view: the immediate child regular files of `p`. -/
def fileChildren (t : Tree) (p : Path) : List Node :=
  (childrenOf t p).filter (fun n => decide (n.kind = FKind.file))

/-- Spec-shaped view: the immediate child subdirectories of `p`. -/
def dirChildren (t : Tree) (p : Path) : List Node :=
  (childrenOf t p).filter (fun n => decide (n.kind = FKind.dir))

/-- Maximum of a list of naturals, `none` on the empty list. -/
def maxOfList : List Nat → Option Nat
  | [] => none
  | x :: xs => some (xs.foldl max x)

/-- Spec-shaped view: the maximum effective mtime among immediate child
regular files. -/
def maxFileChildMtime (t : Tree) (s : Stamps) (p : Path) : Option Nat :=
  maxOfList ((fileChildren t p).map (stampOf s))

/-- Spec-shaped view: the maximum effective mtime among immediate child
subdirectories. -/
def maxChildDirMtime (t : Tree) (s : Stamps) (p : Path) : Option Nat :=
  maxOfList ((dirChildren t p).map (stampOf s))

/-- Reading an overlay through a freshly pushed stamp. -/
lemma stampOf_cons (e : Path × Nat) (s : Stamps) (n : Node) :
    stampOf (e :: s) n = if e.1 = n.path then e.2 else stampOf s n := by
  by_cases h : e.1 = n.path <;> simp [stampOf, List.find?_cons, h]

/-- Stamps pushed for unrelated paths do not change a node's effective
mtime. -/
lemma stampOf_append (d s : Stamps) (n : Node) (h : ∀ e ∈ d, e.1 ≠ n.path) :
    stampOf (d ++ s) n = stampOf s n := by
  induction d with
  | nil => rfl
  | cons e d ih =>
    rw [List.cons_append, stampOf_cons, if_neg (h e (List.mem_cons_self e d))]
    exact ih fun e' he' => h e' (List.mem_cons_of_mem e he')

/-- An immediate child sits one level deeper than its parent. -/
lemma childrenOf_depth {t : Tree} {p : Path} {n : Node} (h : n ∈ childrenOf t p) :
    n.path.length = p.length + 1 := by
  have h2 := (List.mem_filter.mp h).2
  simp only [isChildPath, Bool.and_eq_true, decide_eq_true_eq] at h2
  exact h2.2

/-- Paths of different lengths are different. -/
lemma ne_of_length_ne {a b : Path} (h : a.length ≠ b.length) : a ≠ b :=
  fun e => h (congrArg List.length e)

/-- The child scan only reads the overlay through the children's effective
mtimes. -/
lemma scanChildren_congr (s1 s2 : Stamps) :
    ∀ cs : List Node, (∀ n ∈ cs, stampOf s1 n = stampOf s2 n) →
      ∀ nf nd, scanChildren s1 cs nf nd = scanChildren s2 cs nf nd := by
  intro cs
  induction cs with
  | nil => intro _ nf nd; rfl
  | cons n rest ih =>
    intro h nf nd
    have hn := h n (List.mem_cons_self n rest)
    have hr : ∀ m ∈ rest, stampOf s1 m = stampOf s2 m :=
      fun m hm => h m (List.mem_cons_of_mem n hm)
    cases hb : n.metaOk with
    | false => simp [scanChildren, hb]
    | true =>
      cases hm : n.mtimeOk with
      | false => simp only [scanChildren, hb, hm]; exact ih hr nf nd
      | true =>
        cases hk : n.kind <;> simp only [scanChildren, hb, hm, hk, hn] <;>
          exact ih hr _ _

/-- `find_latest_mtime` only reads the overlay through the children's
effective mtimes. -/
lemma find_latest_congr (t : Tree) (s1 s2 : Stamps) (p : Path)
    (h : ∀ n ∈ childrenOf t p, stampOf s1 n = stampOf s2 n) :
    find_latest_mtime t s1 p = find_latest_mtime t s2 p := by
  unfold find_latest_mtime
  rw [scanChildren_congr s1 s2 _ h none none]

/-- A successful lookup returns a node at the requested path. -/
lemma lookup_path {t : Tree} {p : Path} {n : Node} (h : lookup t p = some n) :
    n.path = p := by
  have := List.find?_some h
  simpa using this

/-- A successful lookup returns a node of the tree. -/
lemma lookup_mem {t : Tree} {p : Path} {n : Node} (h : lookup t p = some n) :
    n ∈ t :=
  List.mem_of_find?_eq_some h

/-- When the tree's paths are distinct, looking a member node's path up
finds that node. -/
lemma lookup_of_nodup {t : Tree} (h : (t.map Node.path).Nodup) {n : Node}
    (hn : n ∈ t) : lookup t n.path = some n := by
  induction t with
  | nil => cases hn
  | cons m rest ih =>
    rcases List.mem_cons.mp hn with rfl | hn'
    · simp [lookup, List.find?_cons]
    · by_cases hmp : m.path = n.path
      · exfalso
        have : n.path ∈ rest.map Node.path := List.mem_map_of_mem Node.path hn'
        rw [List.map_cons, List.nodup_cons] at h
        exact h.1 (hmp ▸ this)
      · have := ih (by rw [List.map_cons, List.nodup_cons] at h; exact h.2) hn'
        simpa [lookup, List.find?_cons, hmp] using this

/-- Whether the current mtime of a directory is readable does not depend on
the overlay. -/
lemma dirMtime_none {t : Tree} {s : Stamps} {p : Path}
    (h : dirMtime t s p = none) (s' : Stamps) : dirMtime t s' p = none := by
  unfold dirMtime at h ⊢
  cases hl : lookup t p with
  | none => rfl
  | some n =>
    rw [hl] at h
    by_cases hf : (n.metaOk && n.mtimeOk) = true
    · simp [hf] at h
    · simp [hf]

/-- A readable current mtime comes from the node at that path via the
overlay. -/
lemma dirMtime_some {t : Tree} {s : Stamps} {p : Path} {cur : Nat}
    (h : dirMtime t s p = some cur) :
    ∃ n, lookup t p = some n ∧ (n.metaOk && n.mtimeOk) = true ∧ cur = stampOf s n := by
  unfold dirMtime at h
  cases hl : lookup t p with
  | none => rw [hl] at h; cases h
  | some n =>
    rw [hl] at h
    dsimp only at h
    by_cases hf : (n.metaOk && n.mtimeOk) = true
    · rw [if_pos hf] at h
      exact ⟨n, rfl, hf, (Option.some_inj.mp h).symm⟩
    · rw [if_neg hf] at h; cases h

/-- One step of the main loop leaves the overlay alone or pushes exactly
one stamp, for the directory just processed. -/
lemma processDir_fst (c : Bool) (t : Tree) (s : Stamps) (p : Path) :
    (processDir c t s p).1 = s ∨ ∃ x, (processDir c t s p).1 = (p, x) :: s := by
  unfold processDir
  cases hdm : dirMtime t s p with
  | none => left; rfl
  | some cur =>
    cases hf : find_latest_mtime t s p with
    | error e => left; rfl
    | ok o =>
      cases o with
      | none => left; rfl
      | some latest =>
        by_cases hneed : cur + 1 < latest ∨ latest + 1 < cur
        · cases c
          · left; simp [hneed]
          · right; exact ⟨latest, by simp [hneed, set_folder_mtime]⟩
        · left; simp [hneed]

/-- In dry-run mode the overlay is never changed. -/
lemma processDir_false_fst (t : Tree) (s : Stamps) (p : Path) :
    (processDir false t s p).1 = s := by
  unfold processDir
  cases hdm : dirMtime t s p with
  | none => rfl
  | some cur =>
    cases hf : find_latest_mtime t s p with
    | error e => rfl
    | ok o =>
      cases o with
      | none => rfl
      | some latest =>
        by_cases hneed : cur + 1 < latest ∨ latest + 1 < cur
        · simp [hneed]
        · simp [hneed]

/-- The whole loop only pushes stamps for directories of the processed
list. -/
lemma foldl_runStep_shape (c : Bool) (t : Tree) :
    ∀ (L : List Path) (acc : Stamps × Nat),
      ∃ d : Stamps, (L.foldl (runStep c t) acc).1 = d ++ acc.1 ∧ ∀ e ∈ d, e.1 ∈ L := by
  intro L
  induction L with
  | nil => intro acc; exact ⟨[], rfl, by simp⟩
  | cons q rest ih =>
    intro acc
    rw [List.foldl_cons]
    obtain ⟨d, hd, hmem⟩ := ih (runStep c t acc q)
    rcases processDir_fst c t acc.1 q with h1 | ⟨x, h1⟩
    · refine ⟨d, ?_, fun e he => List.mem_cons_of_mem q (hmem e he)⟩
      rw [hd]
      show d ++ (processDir c t acc.1 q).1 = d ++ acc.1
      rw [h1]
    · refine ⟨d ++ [(q, x)], ?_, ?_⟩
      · rw [hd]
        show d ++ (processDir c t acc.1 q).1 = d ++ [(q, x)] ++ acc.1
        rw [h1, List.append_assoc, List.singleton_append]
      · intro e he
        rcases List.mem_append.mp he with he' | he'
        · exact List.mem_cons_of_mem q (hmem e he')
        · rw [List.mem_singleton.mp he']
          exact List.mem_cons_self q rest

/-- If processing a given path never changes the overlay, a whole run
leaves that path's node's effective mtime alone. -/
lemma foldl_stampOf_noop (c : Bool) (t : Tree) (n : Node)
    (h : ∀ s' : Stamps, processDir c t s' n.path = (s', false)) :
    ∀ (L : List Path) (acc : Stamps × Nat),
      stampOf ((L.foldl (runStep c t) acc).1) n = stampOf acc.1 n := by
  intro L
  induction L with
  | nil => intro acc; rfl
  | cons q rest ih =>
    intro acc
    rw [List.foldl_cons, ih (runStep c t acc q)]
    show stampOf (processDir c t acc.1 q).1 n = stampOf acc.1 n
    by_cases hq : q = n.path
    · rw [hq, h acc.1]
    · rcases processDir_fst c t acc.1 q with h1 | ⟨x, h1⟩
      · rw [h1]
      · rw [h1, stampOf_cons, if_neg hq]

/-- A fold whose every step is a no-op is the identity. -/
lemma foldl_runStep_noop (c : Bool) (t : Tree) :
    ∀ (L : List Path) (acc : Stamps × Nat),
      (∀ p ∈ L, processDir c t acc.1 p = (acc.1, false)) →
      L.foldl (runStep c t) acc = acc := by
  intro L
  induction L with
  | nil => intro acc _; rfl
  | cons q rest ih =>
    intro acc h
    rw [List.foldl_cons]
    have hq : runStep c t acc q = acc := by
      show ((processDir c t acc.1 q).1,
        if (processDir c t acc.1 q).2 then acc.2 + 1 else acc.2) = acc
      rw [h q (List.mem_cons_self q rest)]
      simp
    rw [hq]
    exact ih acc fun p hp => h p (List.mem_cons_of_mem q hp)

/-- A dry run never changes the overlay. -/
lemma foldl_runStep_false_fst (t : Tree) :
    ∀ (L : List Path) (acc : Stamps × Nat),
      (L.foldl (runStep false t) acc).1 = acc.1 := by
  intro L
  induction L with
  | nil => intro acc; rfl
  | cons q rest ih =>
    intro acc
    rw [List.foldl_cons, ih (runStep false t acc q)]
    show (processDir false t acc.1 q).1 = acc.1
    exact processDir_false_fst t acc.1 q

/-- Membership through the stable insertion. -/
lemma mem_insertDesc {x p : Path} : ∀ {l : List Path},
    x ∈ insertDesc p l ↔ x = p ∨ x ∈ l := by
  intro l
  induction l with
  | nil => simp [insertDesc]
  | cons q rest ih =>
    by_cases h : q.length ≤ p.length
    · simp [insertDesc, h]
    · simp only [insertDesc, if_neg h, List.mem_cons, ih]
      tauto

/-- The stable insertion is a permutation of consing. -/
lemma insertDesc_perm (p : Path) : ∀ l : List Path, List.Perm (insertDesc p l) (p :: l) := by
  intro l
  induction l with
  | nil => exact List.Perm.refl _
  | cons q rest ih =>
    by_cases h : q.length ≤ p.length
    · simp only [insertDesc, if_pos h]
      exact List.Perm.refl _
    · simp only [insertDesc, if_neg h]
      exact (List.Perm.cons q ih).trans (List.Perm.swap p q rest)

/-- The deepest-first sort is a permutation of its input. -/
lemma sortByDepthDesc_perm : ∀ l : List Path, List.Perm (sortByDepthDesc l) l := by
  intro l
  induction l with
  | nil => exact List.Perm.refl _
  | cons x rest ih =>
    show List.Perm (insertDesc x (sortByDepthDesc rest)) (x :: rest)
    exact (insertDesc_perm x (sortByDepthDesc rest)).trans (List.Perm.cons x ih)

/-- The stable insertion preserves the deepest-first ordering. -/
lemma insertDesc_pairwise (p : Path) :
    ∀ l : List Path, l.Pairwise (fun a b => depth_of b ≤ depth_of a) →
      (insertDesc p l).Pairwise (fun a b => depth_of b ≤ depth_of a) := by
  intro l
  induction l with
  | nil => intro _; simp [insertDesc]
  | cons q rest ih =>
    intro hpw
    rw [List.pairwise_cons] at hpw
    by_cases h : q.length ≤ p.length
    · simp only [insertDesc, if_pos h]
      rw [List.pairwise_cons]
      refine ⟨?_, List.pairwise_cons.mpr hpw⟩
      intro b hb
      rcases List.mem_cons.mp hb with rfl | hb'
      · exact h
      · exact le_trans (hpw.1 b hb') h
    · simp only [insertDesc, if_neg h]
      rw [List.pairwise_cons]
      refine ⟨?_, ih hpw.2⟩
      intro b hb
      rcases mem_insertDesc.mp hb with rfl | hb'
      · exact le_of_not_le h
      · exact hpw.1 b hb'

/-- The processing order is deepest first. -/
lemma sortByDepthDesc_pairwise : ∀ l : List Path,
    (sortByDepthDesc l).Pairwise (fun a b => depth_of b ≤ depth_of a) := by
  intro l
  induction l with
  | nil => exact List.Pairwise.nil
  | cons x rest ih => exact insertDesc_pairwise x (sortByDepthDesc rest) ih

/-- Distinct tree paths give a duplicate-free directory list. -/
lemma dirsUnder_nodup {t : Tree} (h : (t.map Node.path).Nodup) (root : Path) :
    (dirsUnder t root).Nodup := by
  have hsub : List.Sublist (dirsUnder t root) (t.map Node.path) :=
    (List.filter_sublist t).map Node.path
  exact h.sublist hsub

/-- The processing order is duplicate-free when tree paths are. -/
lemma sortedDirs_nodup {t : Tree} (h : (t.map Node.path).Nodup) (root : Path) :
    (sortedDirs t root).Nodup :=
  ((sortByDepthDesc_perm (dirsUnder t root)).nodup_iff).mpr (dirsUnder_nodup h root)

/-- Membership in the processing order. -/
lemma mem_sortedDirs {t : Tree} {root p : Path} :
    p ∈ sortedDirs t root ↔ p ∈ dirsUnder t root :=
  (sortByDepthDesc_perm (dirsUnder t root)).mem_iff

/-- A directory node inside the root's subtree is in the processing
order. -/
lemma mem_sortedDirs_of_node {t : Tree} {root : Path} {n : Node}
    (hmem : n ∈ t) (hkind : n.kind = FKind.dir)
    (hroot : underRoot root n.path = true) :
    n.path ∈ sortedDirs t root := by
  rw [mem_sortedDirs]
  exact List.mem_map_of_mem Node.path
    (List.mem_filter.mpr ⟨hmem, by simp [hkind, hroot]⟩)

/-- Folding the scan's accumulator update from a known value is an ordinary
maximum fold. -/
lemma foldl_stepMax_some : ∀ (l : List Nat) (v : Nat),
    l.foldl (fun o m => some (stepMax o m)) (some v) = some (l.foldl max v) := by
  intro l
  induction l with
  | nil => intro v; rfl
  | cons x xs ih => intro v; exact ih (max v x)

/-- Folding the scan's accumulator update from `none` computes the list
maximum. -/
lemma foldl_stepMax_none : ∀ l : List Nat,
    l.foldl (fun o m => some (stepMax o m)) none = maxOfList l := by
  intro l
  cases l with
  | nil => rfl
  | cons x xs =>
    show xs.foldl (fun o m => some (stepMax o m)) (some x) = some (xs.foldl max x)
    exact foldl_stepMax_some xs x

/-- When every listed child's metadata and mtime are readable, the scan
succeeds and computes the running maxima of the file children and of the
directory children. -/
lemma scanChildren_ok_of_readable (s : Stamps) :
    ∀ cs : List Node, (∀ n ∈ cs, n.metaOk = true ∧ n.mtimeOk = true) →
      ∀ nf nd, scanChildren s cs nf nd = .ok
        (((cs.filter fun n => decide (n.kind = FKind.file)).map (stampOf s)).foldl
          (fun o m => some (stepMax o m)) nf,
         ((cs.filter fun n => decide (n.kind = FKind.dir)).map (stampOf s)).foldl
          (fun o m => some (stepMax o m)) nd) := by
  intro cs
  induction cs with
  | nil => intro _ nf nd; rfl
  | cons n rest ih =>
    intro h nf nd
    have hn := h n (List.mem_cons_self n rest)
    have hr : ∀ m ∈ rest, m.metaOk = true ∧ m.mtimeOk = true :=
      fun m hm => h m (List.mem_cons_of_mem n hm)
    have hfile : ∀ k : FKind, n.kind = k → k ≠ FKind.file →
        List.filter (fun m => decide (m.kind = FKind.file)) (n :: rest)
          = List.filter (fun m => decide (m.kind = FKind.file)) rest := by
      intro k hk hne
      simp [List.filter_cons, hk, hne]
    have hdir : ∀ k : FKind, n.kind = k → k ≠ FKind.dir →
        List.filter (fun m => decide (m.kind = FKind.dir)) (n :: rest)
          = List.filter (fun m => decide (m.kind = FKind.dir)) rest := by
      intro k hk hne
      simp [List.filter_cons, hk, hne]
    cases hk : n.kind
    · simp only [scanChildren, hn.1, hn.2, hk]
      have h1 : List.filter (fun m => decide (m.kind = FKind.file)) (n :: rest)
          = n :: List.filter (fun m => decide (m.kind = FKind.file)) rest := by
        simp [List.filter_cons, hk]
      rw [h1, hdir _ hk (by simp), List.map_cons, List.foldl_cons]
      exact ih hr _ _
    · simp only [scanChildren, hn.1, hn.2, hk]
      have h2 : List.filter (fun m => decide (m.kind = FKind.dir)) (n :: rest)
          = n :: List.filter (fun m => decide (m.kind = FKind.dir)) rest := by
        simp [List.filter_cons, hk]
      rw [h2, hfile _ hk (by simp), List.map_cons, List.foldl_cons]
      exact ih hr _ _
    · simp only [scanChildren, hn.1, hn.2, hk]
      rw [hfile _ hk (by simp), hdir _ hk (by simp)]
      exact ih hr _ _
    · simp only [scanChildren, hn.1, hn.2, hk]
      rw [hfile _ hk (by simp), hdir _ hk (by simp)]
      exact ih hr _ _

/-- Under full readability of the children, `find_latest_mtime` resolves to
the newest file child if any, else the newest subdirectory child. -/
lemma find_latest_of_readable {t : Tree} {D : Path} (s : Stamps)
    (hall : ∀ n ∈ childrenOf t D, n.metaOk = true ∧ n.mtimeOk = true) :
    find_latest_mtime t s D =
      .ok ((maxFileChildMtime t s D).or (maxChildDirMtime t s D)) := by
  unfold find_latest_mtime
  rw [scanChildren_ok_of_readable s (childrenOf t D) hall none none]
  rw [foldl_stepMax_none, foldl_stepMax_none]
  rfl

/-- A nonempty list has a maximum. -/
lemma maxOfList_isSome {l : List Nat} (h : l ≠ []) : ∃ m, maxOfList l = some m := by
  cases l with
  | nil => exact absurd rfl h
  | cons x xs => exact ⟨xs.foldl max x, rfl⟩

/-- Reading the current mtime of a readable directory node. -/
lemma dirMtime_eq_some {t : Tree} {p : Path} {n : Node}
    (hl : lookup t p = some n) (hflags : (n.metaOk && n.mtimeOk) = true)
    (s : Stamps) : dirMtime t s p = some (stampOf s n) := by
  unfold dirMtime
  rw [hl]
  simp [hflags]

/-- If an overlay agrees with `s` on the children of `p` and with the
post-step overlay on `p`'s own node, then examining `p` again changes
nothing: the step either already brought `p` within tolerance or found it
within tolerance. -/
lemma processDir_stable (t : Tree) (p : Path) (s sf : Stamps)
    (hchild : ∀ n ∈ childrenOf t p, stampOf sf n = stampOf s n)
    (hself : ∀ n, lookup t p = some n →
      stampOf sf n = stampOf (processDir true t s p).1 n) :
    processDir true t sf p = (sf, false) := by
  cases hdm : dirMtime t s p with
  | none =>
    have hdm' := dirMtime_none hdm sf
    unfold processDir
    rw [hdm']
  | some cur =>
    obtain ⟨n, hl, hflags, hcur⟩ := dirMtime_some hdm
    have hnp : n.path = p := lookup_path hl
    have hfind := find_latest_congr t sf s p hchild
    cases hf : find_latest_mtime t s p with
    | error e =>
      unfold processDir
      rw [dirMtime_eq_some hl hflags sf, hfind, hf]
    | ok o =>
      cases o with
      | none =>
        unfold processDir
        rw [dirMtime_eq_some hl hflags sf, hfind, hf]
      | some latest =>
        by_cases hneed : cur + 1 < latest ∨ latest + 1 < cur
        · have hstep : processDir true t s p = ((p, latest) :: s, true) := by
            unfold processDir
            rw [hdm, hf]
            simp [hneed, set_folder_mtime]
          have hsf : stampOf sf n = latest := by
            have h2 := hself n hl
            rw [hstep] at h2
            simpa [stampOf_cons, hnp] using h2
          unfold processDir
          rw [dirMtime_eq_some hl hflags sf, hfind, hf, hsf]
          simp
        · have hstep : processDir true t s p = (s, false) := by
            unfold processDir
            rw [hdm, hf]
            simp [hneed]
          have hsf : stampOf sf n = cur := by
            have h2 := hself n hl
            rw [hstep] at h2
            rw [h2, ← hcur]
          unfold processDir
          rw [dirMtime_eq_some hl hflags sf, hfind, hf, hsf]
          simp [hneed]

/-- Central stability lemma: after a confirmed pass over a deepest-first,
duplicate-free list, re-examining any directory of the list produces no
further change. -/
lemma main_stable (t : Tree) :
    ∀ L : List Path, L.Pairwise (fun a b => depth_of b ≤ depth_of a) → L.Nodup →
      ∀ (acc : Stamps × Nat) (p : Path), p ∈ L →
        processDir true t ((L.foldl (runStep true t) acc).1) p
          = ((L.foldl (runStep true t) acc).1, false) := by
  intro L
  induction L with
  | nil => intro _ _ acc p hp; cases hp
  | cons q rest ih =>
    intro hpw hnd acc p hp
    rw [List.pairwise_cons] at hpw
    rw [List.nodup_cons] at hnd
    rw [List.foldl_cons]
    rcases List.mem_cons.mp hp with rfl | hp'
    · obtain ⟨d, hd, hdmem⟩ := foldl_runStep_shape true t rest (runStep true t acc p)
      apply processDir_stable t p acc.1
      · intro n hn
        have hlen := childrenOf_depth hn
        have hne : ∀ e ∈ d, e.1 ≠ n.path := by
          intro e he
          have hmem := hdmem e he
          have hle : e.1.length ≤ p.length := hpw.1 e.1 hmem
          exact ne_of_length_ne (by omega)
        rw [hd, stampOf_append _ _ _ hne]
        show stampOf (processDir true t acc.1 p).1 n = stampOf acc.1 n
        rcases processDir_fst true t acc.1 p with h1 | ⟨x, h1⟩
        · rw [h1]
        · rw [h1, stampOf_cons]
          have hppath : p ≠ n.path := ne_of_length_ne (by omega)
          simp [hppath]
      · intro n hl
        have hnp : n.path = p := lookup_path hl
        have hne : ∀ e ∈ d, e.1 ≠ n.path := by
          intro e he
          rw [hnp]
          intro hcontra
          exact hnd.1 (hcontra ▸ hdmem e he)
        rw [hd, stampOf_append _ _ _ hne]
        rfl
    · exact ih hpw.2 hnd.2 (runStep true t acc q) p hp'

/-- After any run of recognized accumulating flags, an unrecognized
dash-argument makes the parser bail out with `unknownExit`. -/
lemma parseArgs_unknown :
    ∀ (flags : List String) (b : String) (rest : List String) (c d : Bool),
      (∀ f ∈ flags, f = "-C" ∨ f = "--confirm" ∨ f = "-D" ∨ f = "--show-dates") →
      startsWithDash b = true →
      b ∉ (["-h", "--help", "-V", "--version", "-C", "--confirm", "-D",
        "--show-dates"] : List String) →
      parseArgs (flags ++ b :: rest) c d = .unknownExit b := by
  intro flags
  induction flags with
  | nil =>
    intro b rest c d _ hb hnb
    simp only [List.mem_cons, List.not_mem_nil, or_false, not_or] at hnb
    obtain ⟨e1, e2, e3, e4, e5, e6, e7, e8⟩ := hnb
    simp only [List.nil_append, parseArgs]
    rw [if_neg (not_or.mpr ⟨e1, e2⟩), if_neg (not_or.mpr ⟨e3, e4⟩),
      if_neg (not_or.mpr ⟨e5, e6⟩), if_neg (not_or.mpr ⟨e7, e8⟩), if_pos hb]
  | cons f fs ih =>
    intro b rest c d hf hb hnb
    have hf0 := hf f (List.mem_cons_self f fs)
    have hfs : ∀ g ∈ fs, g = "-C" ∨ g = "--confirm" ∨ g = "-D" ∨ g = "--show-dates" :=
      fun g hg => hf g (List.mem_cons_of_mem f hg)
    rcases hf0 with h | h | h | h
    · subst h
      simp only [List.cons_append, parseArgs]
      rw [if_neg (by decide), if_neg (by decide), if_pos (by decide)]
      exact ih b rest true d hfs hb hnb
    · subst h
      simp only [List.cons_append, parseArgs]
      rw [if_neg (by decide), if_neg (by decide), if_pos (by decide)]
      exact ih b rest true d hfs hb hnb
    · subst h
      simp only [List.cons_append, parseArgs]
      rw [if_neg (by decide), if_neg (by decide), if_neg (by decide),
        if_pos (by decide)]
      exact ih b rest c true hfs hb hnb
    · subst h
      simp only [List.cons_append, parseArgs]
      rw [if_neg (by decide), if_neg (by decide), if_neg (by decide),
        if_pos (by decide)]
      exact ih b rest c true hfs hb hnb

/-- Without a confirm flag among the arguments, the parser cannot produce a
confirmed run. -/
lemma parseArgs_no_confirm :
    ∀ (args : List String) (d : Bool), "-C" ∉ args → "--confirm" ∉ args →
      ∀ (c' d' : Bool) (pa : Option String),
        parseArgs args false d = .run c' d' pa → c' = false := by
  intro args
  induction args with
  | nil =>
    intro d _ _ c' d' pa h
    simp only [parseArgs, ArgOutcome.run.injEq] at h
    exact h.1.symm
  | cons a rest ih =>
    intro d hC hCC c' d' pa h
    have haC : a ≠ "-C" := by
      intro e
      exact hC (by simp [e])
    have haCC : a ≠ "--confirm" := by
      intro e
      exact hCC (by simp [e])
    have hrC : "-C" ∉ rest := fun hmem => hC (List.mem_cons_of_mem a hmem)
    have hrCC : "--confirm" ∉ rest := fun hmem => hCC (List.mem_cons_of_mem a hmem)
    simp only [parseArgs] at h
    by_cases h1 : a = "-h" ∨ a = "--help"
    · rw [if_pos h1] at h
      cases h
    · rw [if_neg h1] at h
      by_cases h2 : a = "-V" ∨ a = "--version"
      · rw [if_pos h2] at h
        cases h
      · rw [if_neg h2] at h
        rw [if_neg (not_or.mpr ⟨haC, haCC⟩)] at h
        by_cases h4 : a = "-D" ∨ a = "--show-dates"
        · rw [if_pos h4] at h
          exact ih true hrC hrCC c' d' pa h
        · rw [if_neg h4] at h
          by_cases h5 : startsWithDash a = true
          · rw [if_pos h5] at h
            cases h
          · rw [if_neg h5] at h
            simp only [ArgOutcome.run.injEq] at h
            exact h.1.symm

/-- Skipping a child whose `modified()` fails: the scan result is the same
as if the child were absent, wherever it sits in the listing. -/
lemma scanChildren_skip_unreadable (s : Stamps) (n : Node)
    (h1 : n.metaOk = true) (h2 : n.mtimeOk = false) :
    ∀ (pre post : List Node) (nf nd : Option Nat),
      scanChildren s (pre ++ n :: post) nf nd = scanChildren s (pre ++ post) nf nd := by
  intro pre
  induction pre with
  | nil =>
    intro post nf nd
    simp only [List.nil_append]
    simp [scanChildren, h1, h2]
  | cons k pre' ih =>
    intro post nf nd
    simp only [List.cons_append]
    cases hb : k.metaOk with
    | false => simp [scanChildren, hb]
    | true =>
      cases hmt : k.mtimeOk with
      | false =>
        simp only [scanChildren, hb, hmt]
        exact ih post nf nd
      | true =>
        cases hk : k.kind <;> simp only [scanChildren, hb, hmt, hk] <;>
          exact ih post _ _

/-- A child whose `metadata()` fails makes the whole scan fail, wherever it
sits in the listing. -/
lemma scanChildren_error (s : Stamps) :
    ∀ (cs : List Node) (m : Node), m ∈ cs → m.metaOk = false →
      ∀ nf nd, scanChildren s cs nf nd = .error () := by
  intro cs
  induction cs with
  | nil => intro m hm; cases hm
  | cons k rest ih =>
    intro m hm hmm nf nd
    cases hb : k.metaOk with
    | false => simp [scanChildren, hb]
    | true =>
      have hm' : m ∈ rest := by
        rcases List.mem_cons.mp hm with rfl | h
        · rw [hb] at hmm
          cases hmm
        · exact h
      cases hmt : k.mtimeOk with
      | false =>
        simp only [scanChildren, hb, hmt]
        exact ih m hm' hmm _ _
      | true =>
        cases hk : k.kind <;> simp only [scanChildren, hb, hmt, hk] <;>
          exact ih m hm' hmm _ _

/-- Children that are symlinks (readable metadata, non-file, non-dir) leave
both scan accumulators untouched. -/
lemma scanChildren_skip_symlinks (s : Stamps) :
    ∀ cs : List Node, (∀ n ∈ cs, n.metaOk = true ∧ n.kind = FKind.symlink) →
      ∀ nf nd, scanChildren s cs nf nd = .ok (nf, nd) := by
  intro cs
  induction cs with
  | nil => intro _ nf nd; rfl
  | cons k rest ih =>
    intro h nf nd
    have hk := h k (List.mem_cons_self k rest)
    have hr : ∀ n ∈ rest, n.metaOk = true ∧ n.kind = FKind.symlink :=
      fun n hn => h n (List.mem_cons_of_mem k hn)
    cases hmt : k.mtimeOk with
    | false =>
      simp only [scanChildren, hk.1, hmt]
      exact ih hr nf nd
    | true =>
      simp only [scanChildren, hk.1, hmt, hk.2]
      exact ih hr nf nd

/-- Concrete tree `r / a / b`: `b` is empty, `a` holds only the
subdirectory `b`, and the mtimes are `r = 0`, `a = 11`, `b = 10`. -/
def nodeR : Node := ⟨["r"], FKind.dir, true, true, 0⟩

/-- The intermediate directory `r/a` of the concrete tree. -/
def nodeA : Node := ⟨["r", "a"], FKind.dir, true, true, 11⟩

/-- The empty leaf directory `r/a/b` of the concrete tree. -/
def nodeB : Node := ⟨["r", "a", "b"], FKind.dir, true, true, 10⟩

/-- The three-directory concrete tree. -/
def treeRAB : Tree := [nodeR, nodeA, nodeB]

/-- Concrete tree `m` with one file child (`mtime 5`) and one subdirectory
child (`mtime 9`). -/
def nodeM : Node := ⟨["m"], FKind.dir, true, true, 0⟩

/-- The file child of `m`. -/
def nodeMFile : Node := ⟨["m", "f"], FKind.file, true, true, 5⟩

/-- The subdirectory child of `m`. -/
def nodeMDir : Node := ⟨["m", "d"], FKind.dir, true, true, 9⟩

/-- The mixed-children concrete tree. -/
def treeMix : Tree := [nodeM, nodeMFile, nodeMDir]

/-- Concrete tree `d` with a file child whose `metadata()` fails and a
readable file child of mtime 100; `d` itself has mtime 0. -/
def nodeD : Node := ⟨["d"], FKind.dir, true, true, 0⟩

/-- The child of `d` whose metadata cannot be read. -/
def nodeBadMeta : Node := ⟨["d", "x"], FKind.file, false, true, 50⟩

/-- The readable file child of `d`. -/
def nodeGoodFile : Node := ⟨["d", "y"], FKind.file, true, true, 100⟩

/-- The metadata-failure concrete tree. -/
def treeMetaErr : Tree := [nodeD, nodeBadMeta, nodeGoodFile]

/-- A loose node whose metadata is readable but whose mtime is not. -/
def nodeNoMtime : Node := ⟨["z"], FKind.file, true, false, 7⟩

/-- Concrete tree `l` whose only child is a symbolic link. -/
def nodeLRoot : Node := ⟨["l"], FKind.dir, true, true, 0⟩

/-- The symlink child of `l`. -/
def nodeLink : Node := ⟨["l", "s"], FKind.symlink, true, true, 99⟩

/-- The symlink-only concrete tree. -/
def treeLink : Tree := [nodeLRoot, nodeLink]

/-- C1 counterexample: in the tree `r / a / b` with mtimes `r = 0`,
`a = 11`, `b = 10`, directory `a` has no file children and one
subdirectory child `b`, yet after an apply run `a`'s mtime is `11` while
the maximum of its immediate subdirectories' final mtimes is `10` — the
difference is within the one-second tolerance, so no update happens and
the claimed exact equality fails. -/
theorem C1_counterexample :
    fileChildren treeRAB ["r", "a"] = [] ∧
    dirChildren treeRAB ["r", "a"] = [nodeB] ∧
    stampOf (run true treeRAB [] ["r"]).1 nodeA = 11 ∧
    maxChildDirMtime treeRAB (run true treeRAB [] ["r"]).1 ["r", "a"] = some 10 ∧
    (11 : Nat) ≠ 10 :=
  ⟨by decide, by decide, by decide, by decide, by decide⟩

/-- C1 (amended): directories are processed deepest first, and for a
directory with readable metadata, fully readable children, no immediate
file children and at least one immediate subdirectory child, an apply run
leaves its mtime within the one-second tolerance of the maximum of its
immediate subdirectories' mtimes as they stand after their own updates in
the same run (exact equality holds whenever the pre-update difference
exceeded the tolerance, but not in general). -/
theorem C1_propagation (t : Tree) (root : Path) (s : Stamps) (nD : Node)
    (hND : (t.map Node.path).Nodup)
    (hmem : nD ∈ t) (hkind : nD.kind = FKind.dir)
    (hroot : underRoot root nD.path = true)
    (hflags : (nD.metaOk && nD.mtimeOk) = true)
    (hch : ∀ n ∈ childrenOf t nD.path, n.metaOk = true ∧ n.mtimeOk = true)
    (hnofile : fileChildren t nD.path = [])
    (hdir : dirChildren t nD.path ≠ []) :
    (sortedDirs t root).Pairwise (fun a b => depth_of b ≤ depth_of a) ∧
    ∃ cur m, dirMtime t (run true t s root).1 nD.path = some cur ∧
      maxChildDirMtime t (run true t s root).1 nD.path = some m ∧
      cur ≤ m + 1 ∧ m ≤ cur + 1 := by
  constructor
  · exact sortByDepthDesc_pairwise _
  · have hmemL : nD.path ∈ sortedDirs t root := mem_sortedDirs_of_node hmem hkind hroot
    have hstable := main_stable t (sortedDirs t root) (sortByDepthDesc_pairwise _)
      (sortedDirs_nodup hND root) (s, 0) nD.path hmemL
    have hrun : (sortedDirs t root).foldl (runStep true t) (s, 0) = run true t s root := rfl
    rw [hrun] at hstable
    have hlook : lookup t nD.path = some nD := lookup_of_nodup hND hmem
    have hdm : dirMtime t (run true t s root).1 nD.path
        = some (stampOf (run true t s root).1 nD) :=
      dirMtime_eq_some hlook hflags (run true t s root).1
    have hmapne : (dirChildren t nD.path).map (stampOf (run true t s root).1) ≠ [] := by
      intro hmap
      exact hdir (List.map_eq_nil_iff.mp hmap)
    obtain ⟨m, hm⟩ := maxOfList_isSome hmapne
    have hmax : maxChildDirMtime t (run true t s root).1 nD.path = some m := hm
    have hfilenone : maxFileChildMtime t (run true t s root).1 nD.path = none := by
      unfold maxFileChildMtime
      rw [hnofile]
      rfl
    have hfind : find_latest_mtime t (run true t s root).1 nD.path = .ok (some m) := by
      rw [find_latest_of_readable (run true t s root).1 hch, hfilenone, hmax]
      rfl
    refine ⟨stampOf (run true t s root).1 nD, m, hdm, hmax, ?_⟩
    have hneed : ¬(stampOf (run true t s root).1 nD + 1 < m ∨
        m + 1 < stampOf (run true t s root).1 nD) := by
      intro hcon
      have hupd : processDir true t (run true t s root).1 nD.path
          = ((nD.path, m) :: (run true t s root).1, true) := by
        unfold processDir
        rw [hdm, hfind]
        simp [hcon, set_folder_mtime]
      rw [hstable] at hupd
      simp at hupd
    constructor
    · omega
    · omega

/-- C1 witness: the amended propagation bound holds on the concrete tree
`r / a / b` at directory `a`. -/
theorem C1_witness :
    (sortedDirs treeRAB ["r"]).Pairwise (fun a b => depth_of b ≤ depth_of a) ∧
    ∃ cur m, dirMtime treeRAB (run true treeRAB [] ["r"]).1 ["r", "a"] = some cur ∧
      maxChildDirMtime treeRAB (run true treeRAB [] ["r"]).1 ["r", "a"] = some m ∧
      cur ≤ m + 1 ∧ m ≤ cur + 1 :=
  C1_propagation treeRAB ["r"] [] nodeA (by decide) (by decide) (by decide)
    (by decide) (by decide) (by decide) (by decide) (by decide)

/-- C2: for a directory whose children all have readable metadata and
mtimes, the resolved target is the maximum mtime among immediate child
regular files when at least one exists, else the maximum among immediate
child subdirectories when at least one exists, and a directory with
neither kind of immediate child has no target and is skipped unchanged. -/
theorem C2_target_resolution (t : Tree) (s : Stamps) (D : Path)
    (hall : ∀ n ∈ childrenOf t D, n.metaOk = true ∧ n.mtimeOk = true) :
    (fileChildren t D ≠ [] →
      find_latest_mtime t s D = .ok (maxFileChildMtime t s D) ∧
      maxFileChildMtime t s D ≠ none) ∧
    (fileChildren t D = [] → dirChildren t D ≠ [] →
      find_latest_mtime t s D = .ok (maxChildDirMtime t s D) ∧
      maxChildDirMtime t s D ≠ none) ∧
    (fileChildren t D = [] → dirChildren t D = [] →
      find_latest_mtime t s D = .ok none ∧
      ∀ (c : Bool) (s' : Stamps), processDir c t s' D = (s', false)) := by
  refine ⟨?_, ?_, ?_⟩
  · intro hne
    have hmapne : (fileChildren t D).map (stampOf s) ≠ [] := by
      intro hmap
      exact hne (List.map_eq_nil_iff.mp hmap)
    obtain ⟨m, hm⟩ := maxOfList_isSome hmapne
    have hfile : maxFileChildMtime t s D = some m := hm
    constructor
    · rw [find_latest_of_readable s hall, hfile]
      rfl
    · rw [hfile]
      exact Option.some_ne_none m
  · intro hfe hde
    have hfilenone : maxFileChildMtime t s D = none := by
      unfold maxFileChildMtime
      rw [hfe]
      rfl
    have hmapne : (dirChildren t D).map (stampOf s) ≠ [] := by
      intro hmap
      exact hde (List.map_eq_nil_iff.mp hmap)
    obtain ⟨m, hm⟩ := maxOfList_isSome hmapne
    have hdirm : maxChildDirMtime t s D = some m := hm
    constructor
    · rw [find_latest_of_readable s hall, hfilenone]
      rfl
    · rw [hdirm]
      exact Option.some_ne_none m
  · intro hfe hde
    have hfind : ∀ s' : Stamps, find_latest_mtime t s' D = .ok none := by
      intro s'
      have hfn : maxFileChildMtime t s' D = none := by
        unfold maxFileChildMtime
        rw [hfe]
        rfl
      have hdn : maxChildDirMtime t s' D = none := by
        unfold maxChildDirMtime
        rw [hde]
        rfl
      rw [find_latest_of_readable s' hall, hfn, hdn]
      rfl
    refine ⟨hfind s, ?_⟩
    intro c s'
    unfold processDir
    cases hdm : dirMtime t s' D with
    | none => rfl
    | some cur => rw [hfind s']

/-- C2 witness: target resolution on the mixed tree at `m`, whose children
are the file `m/f` and the subdirectory `m/d`. -/
theorem C2_witness :
    (fileChildren treeMix ["m"] ≠ [] →
      find_latest_mtime treeMix [] ["m"] = .ok (maxFileChildMtime treeMix [] ["m"]) ∧
      maxFileChildMtime treeMix [] ["m"] ≠ none) ∧
    (fileChildren treeMix ["m"] = [] → dirChildren treeMix ["m"] ≠ [] →
      find_latest_mtime treeMix [] ["m"] = .ok (maxChildDirMtime treeMix [] ["m"]) ∧
      maxChildDirMtime treeMix [] ["m"] ≠ none) ∧
    (fileChildren treeMix ["m"] = [] → dirChildren treeMix ["m"] = [] →
      find_latest_mtime treeMix [] ["m"] = .ok none ∧
      ∀ (c : Bool) (s' : Stamps), processDir c treeMix s' ["m"] = (s', false)) :=
  C2_target_resolution treeMix [] ["m"] (by decide)

/-- C3: with a readable current mtime and a resolved target, the directory
is counted as updated (applied or reported) exactly when the absolute
difference between current and target mtime strictly exceeds one second;
in particular a difference of exactly one second produces no update. -/
theorem C3_tolerance_boundary (c : Bool) (t : Tree) (s : Stamps) (D : Path)
    (cur tgt : Nat)
    (h1 : dirMtime t s D = some cur)
    (h2 : find_latest_mtime t s D = .ok (some tgt)) :
    ((processDir c t s D).2 = true ↔ 1 < Nat.dist cur tgt) ∧
    (Nat.dist cur tgt = 1 → (processDir c t s D).2 = false) := by
  have hdist : Nat.dist cur tgt = cur - tgt + (tgt - cur) := rfl
  have hiff : (cur + 1 < tgt ∨ tgt + 1 < cur) ↔ 1 < Nat.dist cur tgt := by
    rw [hdist]
    omega
  have hp : processDir c t s D = if cur + 1 < tgt ∨ tgt + 1 < cur
      then (if c then ((D, tgt) :: s, true) else (s, true)) else (s, false) := by
    unfold processDir
    rw [h1, h2]
    rfl
  constructor
  · rw [hp]
    by_cases hneed : cur + 1 < tgt ∨ tgt + 1 < cur
    · rw [if_pos hneed]
      have hlt := hiff.mp hneed
      cases c <;> simp [hlt]
    · rw [if_neg hneed]
      constructor
      · intro hfalse
        cases hfalse
      · intro hlt
        exact absurd (hiff.mpr hlt) hneed
  · intro hone
    rw [hp, if_neg ?_]
    intro hneed
    have := hiff.mp hneed
    omega

/-- C3 witness: in the mixed tree, `m` has current mtime 0 and target 5
(from the file child), so it is updated; the boundary equivalence holds
there concretely. -/
theorem C3_witness :
    ((processDir true treeMix [] ["m"]).2 = true ↔ 1 < Nat.dist 0 5) ∧
    (Nat.dist 0 5 = 1 → (processDir true treeMix [] ["m"]).2 = false) :=
  C3_tolerance_boundary true treeMix [] ["m"] 0 5 (by decide) (by decide)

/-- C4 counterexample: the invocation `dirstamp --bogus` reports the
unknown option but then goes through `print_help_and_exit`, which exits
with status 0 — not the non-zero status the claim requires. -/
theorem C4_counterexample :
    mainRun ["--bogus"] treeRAB [] (fun _ => ["r"]) = .exited 0 [] ∧
    exitCodeOf (mainRun ["--bogus"] treeRAB [] (fun _ => ["r"])) = 0 :=
  ⟨by decide, by decide⟩

/-- C4 (amended): an unknown flag appearing before any positional path is
reported and the program exits through the help path with status 0 (not
non-zero), having performed no traversal and no filesystem change. -/
theorem C4_unknown_flag (flags : List String) (b : String) (rest : List String)
    (t : Tree) (s : Stamps) (toPath : String → Path)
    (hf : ∀ f ∈ flags, f = "-C" ∨ f = "--confirm" ∨ f = "-D" ∨ f = "--show-dates")
    (hb : startsWithDash b = true)
    (hnb : b ∉ (["-h", "--help", "-V", "--version", "-C", "--confirm", "-D",
      "--show-dates"] : List String)) :
    mainRun (flags ++ b :: rest) t s toPath = .exited 0 s := by
  have hp := parseArgs_unknown flags b rest false false hf hb hnb
  unfold mainRun
  rw [hp]

/-- C4 witness: `dirstamp -D --bogus x` exits 0 without touching the
overlay. -/
theorem C4_witness :
    mainRun (["-D"] ++ "--bogus" :: ["x"]) treeRAB [] (fun _ => ["r"]) = .exited 0 [] :=
  C4_unknown_flag ["-D"] "--bogus" ["x"] treeRAB [] (fun _ => ["r"])
    (by decide) (by decide) (by decide)

/-- C5 counterexample: in the tree `d` whose children are a file with
unreadable metadata and a readable file of mtime 100, the child scan
fails, so the whole directory is skipped: `d` keeps mtime 0 even though
the remaining child alone would have driven an update to 100.  The
metadata failure is thus fatal to the directory's own processing, contrary
to the claim. -/
theorem C5_counterexample :
    find_latest_mtime treeMetaErr [] ["d"] = .error () ∧
    stampOf (run true treeMetaErr [] ["d"]).1 nodeD = 0 ∧
    maxOfList ((List.filter (fun n => n.metaOk) (fileChildren treeMetaErr ["d"])).map
      (stampOf [])) = some 100 :=
  ⟨by decide, by decide, by decide⟩

/-- C5 (amended): a child whose `modified()` mtime cannot be read is
skipped silently — the scan result is as if that child were absent, the
remaining children still counted — but a child whose `metadata()` read
fails aborts the scan of that directory: the directory is skipped
unchanged (the run continues with other directories). -/
theorem C5_child_error_handling (t : Tree) (s : Stamps) (pre post : List Node)
    (n : Node) (nf nd : Option Nat) (D : Path) (m : Node)
    (h1 : n.metaOk = true) (h2 : n.mtimeOk = false)
    (hm : m ∈ childrenOf t D) (hmm : m.metaOk = false) :
    scanChildren s (pre ++ n :: post) nf nd = scanChildren s (pre ++ post) nf nd ∧
    ∀ (c : Bool) (s' : Stamps), processDir c t s' D = (s', false) := by
  constructor
  · exact scanChildren_skip_unreadable s n h1 h2 pre post nf nd
  · have hfind : ∀ s' : Stamps, find_latest_mtime t s' D = .error () := by
      intro s'
      unfold find_latest_mtime
      rw [scanChildren_error s' (childrenOf t D) m hm hmm none none]
    intro c s'
    unfold processDir
    cases hdm : dirMtime t s' D with
    | none => rfl
    | some cur => rw [hfind s']

/-- C5 witness: the amended error handling at directory `d` of the
metadata-failure tree, with the loose unreadable-mtime node as the
silently skipped child. -/
theorem C5_witness :
    scanChildren [] ([] ++ nodeNoMtime :: []) none none
        = scanChildren ([] : Stamps) ([] ++ []) none none ∧
    ∀ (c : Bool) (s' : Stamps), processDir c treeMetaErr s' ["d"] = (s', false) :=
  C5_child_error_handling treeMetaErr [] [] [] nodeNoMtime none none ["d"]
    nodeBadMeta (by decide) (by decide) (by decide) (by decide)

/-- C6: a confirmed run is idempotent — running apply mode again on the
resulting, otherwise unchanged tree performs zero updates, every
directory now being within the one-second tolerance of its recomputed
target (or skipped for the same reason as before). -/
theorem C6_idempotent (t : Tree) (root : Path) (s : Stamps)
    (hND : (t.map Node.path).Nodup) :
    (run true t (run true t s root).1 root).2 = 0 := by
  have hstable := main_stable t (sortedDirs t root) (sortByDepthDesc_pairwise _)
    (sortedDirs_nodup hND root) (s, 0)
  have hrun : (sortedDirs t root).foldl (runStep true t) (s, 0) = run true t s root := rfl
  rw [hrun] at hstable
  have h2 : (sortedDirs t root).foldl (runStep true t) ((run true t s root).1, 0)
      = ((run true t s root).1, 0) :=
    foldl_runStep_noop true t (sortedDirs t root) ((run true t s root).1, 0)
      (fun p hp => hstable p hp)
  show ((sortedDirs t root).foldl (runStep true t) ((run true t s root).1, 0)).2 = 0
  rw [h2]

/-- C6 witness: the second apply run over the concrete tree `r / a / b`
updates nothing. -/
theorem C6_witness :
    (run true treeRAB (run true treeRAB [] ["r"]).1 ["r"]).2 = 0 :=
  C6_idempotent treeRAB ["r"] [] (by decide)

/-- C7: without a confirm flag among the arguments the run is a dry run,
and the filesystem overlay after the invocation is exactly the one
before it — no mtime is modified. -/
theorem C7_dry_run_no_mutation (args : List String) (t : Tree) (s : Stamps)
    (toPath : String → Path)
    (h1 : "-C" ∉ args) (h2 : "--confirm" ∉ args) :
    stampsOf (mainRun args t s toPath) = s := by
  unfold mainRun
  cases hp : parseArgs args false false with
  | helpExit => rfl
  | versionExit => rfl
  | unknownExit u => rfl
  | run c d pa =>
    have hc : c = false := parseArgs_no_confirm args false h1 h2 c d pa hp
    subst hc
    dsimp only
    cases hl : lookup t (toPath (pa.getD ".")) with
    | some n =>
      show (run false t s (toPath (pa.getD "."))).1 = s
      exact foldl_runStep_false_fst t (sortedDirs t (toPath (pa.getD "."))) (s, 0)
    | none => rfl

/-- C7 witness: a dry run of `dirstamp -D` over the concrete tree leaves
the overlay empty even though directory `r` is out of tolerance. -/
theorem C7_witness :
    stampsOf (mainRun ["-D"] treeRAB [] (fun _ => ["r"])) = [] :=
  C7_dry_run_no_mutation ["-D"] treeRAB [] (fun _ => ["r"]) (by decide) (by decide)

/-- C8: a directory with no immediate children at all resolves no target,
so no run — in either mode, from any overlay, over any root — ever
modifies its mtime. -/
theorem C8_empty_dir_untouched (c : Bool) (t : Tree) (s : Stamps) (root : Path)
    (n : Node) (hch : childrenOf t n.path = []) :
    stampOf (run c t s root).1 n = stampOf s n := by
  have hfind : ∀ s' : Stamps, find_latest_mtime t s' n.path = .ok none := by
    intro s'
    unfold find_latest_mtime
    rw [hch]
    rfl
  have hnoop : ∀ s' : Stamps, processDir c t s' n.path = (s', false) := by
    intro s'
    unfold processDir
    cases hdm : dirMtime t s' n.path with
    | none => rfl
    | some cur => rw [hfind s']
  exact foldl_stampOf_noop c t n hnoop (sortedDirs t root) (s, 0)

/-- C8 witness: the empty leaf `r/a/b` keeps its mtime across an apply
run of the concrete tree. -/
theorem C8_witness :
    stampOf (run true treeRAB [] ["r"]).1 nodeB = stampOf [] nodeB :=
  C8_empty_dir_untouched true treeRAB [] ["r"] nodeB (by decide)

/-- C9: when the resolved root path does not exist in the tree, the
program exits with status 2 (non-zero) before any traversal, leaving the
overlay untouched. -/
theorem C9_missing_root (args : List String) (t : Tree) (s : Stamps)
    (toPath : String → Path) (c d : Bool) (pa : Option String)
    (hp : parseArgs args false false = .run c d pa)
    (hr : lookup t (toPath (pa.getD ".")) = none) :
    mainRun args t s toPath = .exited 2 s := by
  unfold mainRun
  rw [hp]
  dsimp only
  rw [hr]

/-- C9 witness: `dirstamp nowhere` over the concrete tree exits 2 with the
overlay unchanged. -/
theorem C9_witness :
    mainRun ["nowhere"] treeRAB [] (fun _ => ["nowhere"]) = .exited 2 [] :=
  C9_missing_root ["nowhere"] treeRAB [] (fun _ => ["nowhere"]) false false
    (some "nowhere") (by decide) (by decide)

/-- C10: children that are symbolic links by their own (non-followed)
metadata contribute to neither the newest-file nor the newest-dir
computation, so a directory whose immediate children are all symlinks is
treated as empty — its target resolves to none and no run in any mode
ever modifies its mtime. -/
theorem C10_symlink_children (c : Bool) (t : Tree) (s : Stamps) (root : Path)
    (n : Node)
    (hch : ∀ m ∈ childrenOf t n.path, m.metaOk = true ∧ m.kind = FKind.symlink) :
    find_latest_mtime t s n.path = .ok none ∧
    stampOf (run c t s root).1 n = stampOf s n := by
  have hfind : ∀ s' : Stamps, find_latest_mtime t s' n.path = .ok none := by
    intro s'
    unfold find_latest_mtime
    rw [scanChildren_skip_symlinks s' (childrenOf t n.path) hch none none]
    rfl
  refine ⟨hfind s, ?_⟩
  have hnoop : ∀ s' : Stamps, processDir c t s' n.path = (s', false) := by
    intro s'
    unfold processDir
    cases hdm : dirMtime t s' n.path with
    | none => rfl
    | some cur => rw [hfind s']
  exact foldl_stampOf_noop c t n hnoop (sortedDirs t root) (s, 0)

/-- C10 witness: the directory `l`, whose only child is a symlink of mtime
99, resolves no target and keeps its mtime 0 across an apply run. -/
theorem C10_witness :
    find_latest_mtime treeLink [] ["l"] = .ok none ∧
    stampOf (run true treeLink [] ["l"]).1 nodeLRoot = stampOf [] nodeLRoot :=
  C10_symlink_children true treeLink [] ["l"] nodeLRoot (by decide)

end Dirstamp
